import Mathlib

/-!
Verification of the Sourashtra dictionary CSV tooling.

The repository is a set of Python batch scripts that validate and transform
CSV rows.  We embed the row-level logic of each script shallowly:

* a CSV field is a `List Char`, a CSV row a `List Field`;
* Python `str.strip()` / `str.split()` / `str.replace` are modelled by
  executable Lean functions over `List Char` (whitespace is modelled by the
  six ASCII whitespace characters recognised by Python's `\s` on ASCII text;
  none of the verified properties depends on the exact whitespace set);
* external libraries (aksharamukha, NLTK/WordNet, the ConceptNet HTTP API,
  the Unicode word-character table of Python's `re` module) are parameters:
  fallible calls are values of `Except Unit _` supplied by an oracle.
-/

namespace Srd

/-- A CSV field (Python `str`). -/
abbrev Field := List Char

/-- A CSV row, as produced by `csv.reader`. -/
abbrev Row := List Field

/-- Python `\s` / `str.strip()` whitespace (ASCII part): space, tab,
newline, carriage return, vertical tab, form feed. -/
def isSpace (c : Char) : Bool :=
  c = ' ' || c = '\t' || c = '\n' || c = '\r' || c = '\x0b' || c = '\x0c'

/-- Python `str.strip()`: drop leading and trailing whitespace. -/
def strip (s : Field) : Field :=
  ((s.dropWhile isSpace).reverse.dropWhile isSpace).reverse

/-- Python `str.lower()` (modelled character-wise). -/
def lowerStr (s : Field) : Field := s.map Char.toLower

/-- Python `str.split(sep)` for a one-character separator `sep`:
`"".split(sep) = ['']`, separators delimit (possibly empty) chunks. -/
def splitOnChar (sep : Char) : Field → List Field
  | [] => [[]]
  | c :: cs =>
    match splitOnChar sep cs with
    | [] => [[]]
    | w :: ws => if c = sep then [] :: w :: ws else (c :: w) :: ws

/-- `startsWith pat s` : `pat` is a prefix of `s`. -/
def startsWith : Field → Field → Bool
  | [], _ => true
  | _ :: _, [] => false
  | p :: ps, c :: cs => p = c && startsWith ps cs

/-- `hasSub pat s` : Python `pat in s` (substring containment). -/
def hasSub (pat : Field) : Field → Bool
  | [] => pat.isEmpty
  | c :: cs => startsWith pat (c :: cs) || hasSub pat cs

/-- Python `str.replace(pat, rep)` for a non-empty `pat`: replace every
(leftmost, non-overlapping) occurrence. -/
def replaceAll (pat rep : Field) : Field → Field
  | [] => []
  | c :: cs =>
    if h : pat ≠ [] ∧ startsWith pat (c :: cs) then
      rep ++ replaceAll pat rep ((c :: cs).drop pat.length)
    else
      c :: replaceAll pat rep cs
termination_by s => s.length
decreasing_by
  · have hp : 1 ≤ pat.length := by
      cases pat
      · exact absurd rfl h.1
      · simp
    simp only [List.length_drop, List.length_cons]
    omega
  · simp

/-- A row is skipped as blank when every field strips to the empty string
(`not any(field.strip() for field in row)`); the empty row `[]` produced by
a blank CSV line is blank. -/
def blankRow (row : Row) : Bool :=
  row.all (fun f => strip f = [])

/-! ### `check_csv_files.py` — the field-count validator

`src/check_csv_files.py` validates against a fixed count of 5;
`tools/check_csv_files.py` takes the expected count as an argument.
Both share the same per-file loop, embedded here: rows are enumerated from
1, blank rows are skipped, and the first row whose field count differs from
the expected count is returned as `(line number, field count)`. -/

/-- The row loop of `check_csv_file`, carrying the 1-based line number.
`none` means the file is valid. -/
def checkRows (expected : Nat) : Nat → List Row → Option (Nat × Nat)
  | _, [] => none
  | n, row :: rest =>
    if blankRow row then checkRows expected (n + 1) rest
    else if row.length ≠ expected then some (n, row.length)
    else checkRows expected (n + 1) rest

/-- `tools/check_csv_files.py::check_csv_file` (I/O stripped): the validator
over the parsed rows of one file. -/
def check_csv_file (expected : Nat) (rows : List Row) : Option (Nat × Nat) :=
  checkRows expected 1 rows

/-- `src/check_csv_files.py::check_csv_file`: the fixed 5-field validator. -/
def check_csv_file_five (rows : List Row) : Option (Nat × Nat) :=
  checkRows 5 1 rows

/-! ### `process_format_csv.py` — column reversal -/

/-- The reversal `c1,c2,c3,c4,c5 -> c5,c4,c3,c2,c1` applied by
`process_format_csv.py` to each (5-field) row
(`reversed_row = [row[4], row[3], row[2], row[1], row[0]]`). -/
def reverse_row : Row → Row
  | [c1, c2, c3, c4, c5] => [c5, c4, c3, c2, c1]
  | r => r

/-- The row loop of `process_format_csv.py::process_csv_file` (file I/O
stripped): skip blank rows, stop with `(lines_processed + 1, field count)`
on the first non-5-field row, otherwise emit the reversed rows.  The first
argument is the running `lines_processed` counter. -/
def processFormatRows : Nat → List Row → Except (Nat × Nat) (List Row)
  | _, [] => .ok []
  | n, row :: rest =>
    if blankRow row then processFormatRows n rest
    else if row.length ≠ 5 then .error (n + 1, row.length)
    else
      match processFormatRows (n + 1) rest with
      | .ok out => .ok (reverse_row row :: out)
      | .error e => .error e

/-! ### `split_terms.py` — composite-term splitter -/

/-- `split_terms.py::split_field_by_separators`: split a field into its
composite terms by `/` and `,`, handling a fully quoted field specially. -/
def split_field_by_separators (f : Field) : List Field :=
  if f = [] ∨ strip f = [] then [[]]
  else
    let g := strip f
    if g.headD ' ' = '"' ∧ g.getLastD ' ' = '"' then
      let inner := (g.drop 1).dropLast
      (splitOnChar ',' inner).flatMap (fun part =>
        let p := strip part
        if '/' ∈ p then (splitOnChar '/' p).map strip else [p])
    else
      (splitOnChar '/' g).flatMap (fun part =>
        let p := strip part
        if ',' ∈ p then (splitOnChar ',' p).map strip else [p])

/-- `split_terms.py::process_csv_line.pad_list`: pad a list of terms to the
target length by repeating its last element (all-empty when the list is
empty). -/
def pad_list (lst : List Field) (n : Nat) : List Field :=
  match lst.getLast? with
  | none => List.replicate n []
  | some last => lst ++ List.replicate (n - lst.length) last

/-- `split_terms.py::process_csv_line`: expand one 5-field row whose first
three fields may hold composite terms; a row that is not 5 fields wide is
returned as-is. -/
def split_process_csv_line (row : Row) : List Row :=
  match row with
  | [c1, c2, c3, c4, c5] =>
    let t1 := split_field_by_separators c1
    let t2 := split_field_by_separators c2
    let t3 := split_field_by_separators c3
    let m := max (max t1.length t2.length) t3.length
    if m = 1 then [row]
    else
      let p1 := pad_list t1 m
      let p2 := pad_list t2 m
      let p3 := pad_list t3 m
      (List.range m).map (fun i => [p1.getD i [], p2.getD i [], p3.getD i [], c4, c5])
  | _ => [row]

/-- The row loop of `split_terms.py::process_csv_file` (file I/O stripped):
skip blank rows, expand every other row.  Processing never stops early. -/
def split_terms_rows : List Row → List Row
  | [] => []
  | row :: rest =>
    if blankRow row then split_terms_rows rest
    else split_process_csv_line row ++ split_terms_rows rest

/-! ### `transliterate.py`

The aksharamukha call `transliterate.process(src, fmt, word, nativize)` is
an external library; it is a parameter `call fmt word` returning
`Except Unit Field`, `.error` when the library raises. -/

/-- The four transliterations produced for one Sourashtra word. -/
structure Translits where
  romanReadable : Field
  hk : Field
  iast : Field
  ipa : Field
deriving DecidableEq

/-- The all-empty transliteration result. -/
def emptyTranslits : Translits := ⟨[], [], [], []⟩

def fmtRomanReadable : Field := "RomanReadable".toList
def fmtHK : Field := "HK".toList
def fmtIAST : Field := "IAST".toList
def fmtIPA : Field := "IPA".toList

/-- `transliterate.py::transliterate_sourashtra_word`: blank words get the
all-empty result; otherwise the four library calls run on the stripped word
and any library failure degrades to the all-empty result (the script prints
a warning and continues). -/
def transliterate_sourashtra_word (call : Field → Field → Except Unit Field)
    (w : Field) : Translits :=
  if w = [] ∨ strip w = [] then emptyTranslits
  else
    let cw := strip w
    match call fmtRomanReadable cw, call fmtHK cw, call fmtIAST cw, call fmtIPA cw with
    | .ok r, .ok h, .ok i, .ok p => ⟨r, h, i, p⟩
    | _, _, _, _ => emptyTranslits

/-- `transliterate.py::process_csv_line`: a 5-field row is widened to 9
fields by inserting the four transliterations of the Sourashtra word; any
other row is returned as-is (with a printed warning). -/
def translit_process_csv_line (call : Field → Field → Except Unit Field)
    (row : Row) : Row :=
  match row with
  | [sw, hp, tp, em, tm] =>
    let t := transliterate_sourashtra_word call sw
    [sw, hp, tp, t.romanReadable, t.hk, t.iast, t.ipa, em, tm]
  | _ => row

/-- The row loop of `transliterate.py::process_csv_file` (file I/O
stripped): skip blank rows, transform every other row.  Processing never
stops early. -/
def transliterate_rows (call : Field → Field → Except Unit Field) : List Row → List Row
  | [] => []
  | row :: rest =>
    if blankRow row then transliterate_rows call rest
    else translit_process_csv_line call row :: transliterate_rows call rest

/-! ### `cleanup.py` — bracket stripping

`clean_bracket_terms` is `re.sub(r'\s*\([^)]*\)\s*', '', text)` followed by
whitespace normalisation.  `re.sub` scans left to right; at a position the
pattern matches exactly when the maximal whitespace run there is followed
by `(` with some `)` later (`[^)]*` is greedy up to the first `)`), and the
match extends past that first `)` over the following whitespace run. -/

/-- After the `(` of a match: consume up to and including the first `)`
(the greedy `[^)]*\)`), then the trailing `\s*`.  `none` when no `)`
follows, in which case the pattern cannot match. -/
def matchClose : Field → Option Field
  | [] => none
  | c :: cs => if c = ')' then some (cs.dropWhile isSpace) else matchClose cs

/-- Attempt to match `\s*\([^)]*\)\s*` at the start of `s`; returns the
rest of the string after the match. -/
def tryMatch (s : Field) : Option Field :=
  match s.dropWhile isSpace with
  | [] => none
  | c :: cs => if c = '(' then matchClose cs else none

/-- The scan of `re.sub(r'\s*\([^)]*\)\s*', '', text)`: at each position
try to match; on a match drop it and continue after it, otherwise keep the
character. -/
def subScan : Field → Field
  | [] => []
  | c :: cs =>
    match h : tryMatch (c :: cs) with
    | some rest => subScan rest
    | none => c :: subScan cs
termination_by s => s.length
decreasing_by
  · have hmc : ∀ (t r : Field), matchClose t = some r → r.length < t.length := by
      intro t
      induction t with
      | nil => intro r hr; simp [matchClose] at hr
      | cons a as ih =>
        intro r hr
        simp only [matchClose] at hr
        split at hr
        · cases hr
          exact Nat.lt_succ_of_le (List.dropWhile_suffix _).length_le
        · exact Nat.lt_trans (ih r hr) (Nat.lt_succ_self _)
    rw [tryMatch] at h
    split at h
    · cases h
    · rename_i c' cs' heq
      split at h
      · have h1 := hmc _ _ h
        have h2 : (c' :: cs').length ≤ (c :: cs).length := by
          rw [← heq]
          exact (List.dropWhile_suffix _).length_le
        simp only [List.length_cons] at h1 h2 ⊢
        omega
      · cases h
  · simp

/-- One step of whitespace normalisation (`' '.join(text.split())` on a
string without leading whitespace): collapse every interior whitespace run
to a single space, drop a trailing run. -/
def squishGo : Field → Field
  | [] => []
  | c :: cs =>
    if isSpace c then
      match hdw : cs.dropWhile isSpace with
      | [] => []
      | d :: ds => ' ' :: squishGo (d :: ds)
    else
      c :: squishGo cs
termination_by s => s.length
decreasing_by
  · have hle := (List.dropWhile_suffix (l := cs) isSpace).length_le
    rw [hdw] at hle
    simp only [List.length_cons] at hle ⊢
    omega
  · simp

/-- `' '.join(text.split()).strip()`: whitespace normalisation. -/
def squish (s : Field) : Field := squishGo (s.dropWhile isSpace)

/-- `cleanup.py::clean_bracket_terms`: falsy input is returned unchanged;
otherwise all bracketed runs are removed and whitespace is normalised. -/
def clean_bracket_terms (s : Field) : Field :=
  if s.isEmpty then s else squish (subScan s)

/-- `cleanup.py::process_csv_line`: clean every field of a row. -/
def cleanup_process_csv_line (row : Row) : Row :=
  row.map clean_bracket_terms

/-! ### `convert_to_dictpress.py` and `analyze_constraints.py`

External collaborators are oracles: WordNet synsets, the WordNet
lemmatizer, the ConceptNet HTTP response, and the Unicode word-character
table behind `re`'s `\w` (only its value on the ASCII word characters is
fixed by the scripts' own string constants; no claim depends on the rest).
`list(set(...))` orders are unspecified in Python; they are modelled as
first-occurrence deduplication. -/

/-- Keep first occurrences, drop later duplicates (the model of
`list(set(xs))` / insertion-ordered dict keys). -/
def dedupFirst : List Field → List Field
  | [] => []
  | x :: xs => x :: (dedupFirst xs).filter (fun y => y ≠ x)

/-- Maximal runs of characters satisfying `keep`: Python `str.split()`
(with `keep` = non-whitespace) and `re.findall(r'\b\w+\b', s)` (with
`keep` = word character). -/
def wordRuns (keep : Char → Bool) (s : Field) : List Field :=
  match hdw : s.dropWhile (fun c => !keep c) with
  | [] => []
  | c :: cs =>
    (c :: cs).takeWhile keep :: wordRuns keep ((c :: cs).dropWhile keep)
termination_by s.length
decreasing_by
  · have h1 : (c :: cs).length ≤ s.length := by
      have hle := (List.dropWhile_suffix (l := s) (fun c => !keep c)).length_le
      rw [hdw] at hle
      exact hle
    have hc : keep c = true := by
      have hh := List.head?_dropWhile_not (fun c => !keep c) s
      rw [hdw] at hh
      simp only [List.head?_cons] at hh
      simpa using hh
    have h2 : (c :: cs).dropWhile keep = cs.dropWhile keep := by
      simp [List.dropWhile_cons, hc]
    rw [h2]
    have h3 := (List.dropWhile_suffix (l := cs) keep).length_le
    simp only [List.length_cons] at h1
    omega

/-- Python `str.split()`. -/
def wordsOf (s : Field) : List Field := wordRuns (fun c => !isSpace c) s

/-- A WordNet synset, as the scripts use it: its lemma names and its
definition string. -/
structure Synset where
  lemmaNames : List Field
  defn : Field

/-- The NLTK/WordNet collaborator: availability flag, the (fallible)
`wordnet.synsets` lookup, and the `WordNetLemmatizer.lemmatize` call. -/
structure NLTKOracle where
  available : Bool
  synsets : Field → Except Unit (List Synset)
  lemmatize : Field → Field → Field

/-- The environment of `DictpressConverter`: the NLTK oracle and the
Unicode word-character class of `re`'s `\w`. -/
structure ConvEnv where
  nltk : NLTKOracle
  isWordChar : Char → Bool

/-- `NLTKEnhancer.get_synonyms`: all lemma names of all synsets of `word`,
`_` replaced by a space, the word itself excluded, lowercased, deduplicated
and capped at 5; empty when NLTK is unavailable or the lookup raises. -/
def get_synonyms (o : NLTKOracle) (word : Field) : List Field :=
  if o.available = false then []
  else
    match o.synsets word with
    | .error _ => []
    | .ok ss =>
      (dedupFirst (((ss.flatMap Synset.lemmaNames).map
          (fun nm => replaceAll ['_'] [' '] nm)).filterMap
          (fun syn => if syn ≠ word then some (lowerStr syn) else none))).take 5

/-- `NLTKEnhancer.get_definition`: the definition of the first synset of
`word`; empty when NLTK is unavailable, there is no synset, or the lookup
raises. -/
def get_definition (o : NLTKOracle) (word : Field) : Field :=
  if o.available = false then []
  else
    match o.synsets word with
    | .error _ => []
    | .ok [] => []
    | .ok (s :: _) => s.defn

/-- An edge of a ConceptNet query response (`endLabel = none` models an
edge without an `end` object). -/
structure CNEdge where
  endLabel : Option Field

/-- A ConceptNet query response: HTTP status and edge list. -/
structure CNResponse where
  status : Nat
  edges : List CNEdge

/-- `ConceptNetAPI.get_related_concepts`: labels of edge endpoints, kept
when non-empty, different from the word and at most two words long,
lowercased, deduplicated, capped at `limit`; empty on a non-200 status or
when the request raises. -/
def get_related_concepts (word : Field) (limit : Nat)
    (resp : Except Unit CNResponse) : List Field :=
  match resp with
  | .error _ => []
  | .ok r =>
    if r.status = 200 then
      (dedupFirst (r.edges.filterMap (fun e =>
        match e.endLabel with
        | none => none
        | some lbl =>
          if lbl ≠ [] ∧ lbl ≠ word ∧ (wordsOf lbl).length ≤ 2 then
            some (lowerStr lbl)
          else none))).take limit
    else []

/-- Category information attached to a file name (`type`, `tags`,
`category` of a `CATEGORY_MAPPINGS` entry). -/
structure CategoryInfo where
  type : Field
  tags : Field
  category : Field

/-- The `CATEGORY_MAPPINGS` table. -/
def CATEGORY_MAPPINGS : List (Field × CategoryInfo) := [
  ("adjectives".toList, ⟨"adj".toList, "descriptive|quality".toList, "adjective".toList⟩),
  ("adverbs".toList, ⟨"adv".toList, "manner|degree".toList, "adverb".toList⟩),
  ("age-and-growth-stages".toList, ⟨"noun".toList, "time|period|stage|life".toList, "noun".toList⟩),
  ("animals".toList, ⟨"noun".toList, "animal|creature|living".toList, "noun".toList⟩),
  ("birds".toList, ⟨"noun".toList, "bird|animal|flying".toList, "noun".toList⟩),
  ("body-parts".toList, ⟨"noun".toList, "anatomy|body|physical".toList, "noun".toList⟩),
  ("ceremonies".toList, ⟨"noun".toList, "ritual|ceremony|religious".toList, "noun".toList⟩),
  ("colors".toList, ⟨"adj".toList, "color|visual|appearance".toList, "adjective".toList⟩),
  ("compound-verbs".toList, ⟨"verb".toList, "action|compound".toList, "verb".toList⟩),
  ("concepts".toList, ⟨"noun".toList, "abstract|concept|idea".toList, "noun".toList⟩),
  ("creatures-and-insects".toList, ⟨"noun".toList, "creature|insect|small|animal".toList, "noun".toList⟩),
  ("defective-verbs".toList, ⟨"verb".toList, "action|irregular".toList, "verb".toList⟩),
  ("directions".toList, ⟨"noun".toList, "direction|spatial|location".toList, "noun".toList⟩),
  ("dress-and-ornaments".toList, ⟨"noun".toList, "clothing|ornament|decoration".toList, "noun".toList⟩),
  ("earth-and-related-words".toList, ⟨"noun".toList, "earth|nature|geography".toList, "noun".toList⟩),
  ("education".toList, ⟨"noun".toList, "education|learning|knowledge".toList, "noun".toList⟩),
  ("festivals".toList, ⟨"noun".toList, "festival|celebration|cultural".toList, "noun".toList⟩),
  ("food".toList, ⟨"noun".toList, "food|nourishment|eating".toList, "noun".toList⟩),
  ("fruits".toList, ⟨"noun".toList, "fruit|food|plant".toList, "noun".toList⟩),
  ("function-verbs".toList, ⟨"verb".toList, "action|function|activity".toList, "verb".toList⟩),
  ("games".toList, ⟨"noun".toList, "game|play|entertainment".toList, "noun".toList⟩),
  ("grammar".toList, ⟨"noun".toList, "grammar|language|linguistic".toList, "noun".toList⟩),
  ("health".toList, ⟨"noun".toList, "health|medical|wellness".toList, "noun".toList⟩),
  ("house-articles".toList, ⟨"noun".toList, "household|object|domestic".toList, "noun".toList⟩),
  ("house-parts".toList, ⟨"noun".toList, "house|building|structure".toList, "noun".toList⟩),
  ("interrogative-words".toList, ⟨"pron".toList, "question|interrogative".toList, "pronoun".toList⟩),
  ("kinship".toList, ⟨"noun".toList, "family|relationship|social".toList, "noun".toList⟩),
  ("kitchen".toList, ⟨"noun".toList, "kitchen|cooking|food".toList, "noun".toList⟩),
  ("law-and-order".toList, ⟨"noun".toList, "law|legal|order".toList, "noun".toList⟩),
  ("literature".toList, ⟨"noun".toList, "literature|writing|cultural".toList, "noun".toList⟩),
  ("measurements".toList, ⟨"noun".toList, "measurement|quantity|size".toList, "noun".toList⟩),
  ("metals".toList, ⟨"noun".toList, "metal|material|substance".toList, "noun".toList⟩),
  ("months".toList, ⟨"noun".toList, "time|month|calendar".toList, "noun".toList⟩),
  ("music".toList, ⟨"noun".toList, "music|art|cultural".toList, "noun".toList⟩),
  ("numerals".toList, ⟨"noun".toList, "number|quantity|counting".toList, "noun".toList⟩),
  ("physique".toList, ⟨"noun".toList, "physical|body|appearance".toList, "noun".toList⟩),
  ("plants".toList, ⟨"noun".toList, "plant|nature|botanical".toList, "noun".toList⟩),
  ("politics".toList, ⟨"noun".toList, "politics|government|social".toList, "noun".toList⟩),
  ("profession".toList, ⟨"noun".toList, "profession|work|occupation".toList, "noun".toList⟩),
  ("pronouns".toList, ⟨"pron".toList, "pronoun|reference".toList, "pronoun".toList⟩),
  ("provisions".toList, ⟨"noun".toList, "provision|supply|material".toList, "noun".toList⟩),
  ("religious-institutions".toList, ⟨"noun".toList, "religious|institution|spiritual".toList, "noun".toList⟩),
  ("seasons".toList, ⟨"noun".toList, "season|time|weather".toList, "noun".toList⟩),
  ("simple-verbs".toList, ⟨"verb".toList, "action|simple".toList, "verb".toList⟩),
  ("sizes-and-shapes".toList, ⟨"adj".toList, "size|shape|physical".toList, "adjective".toList⟩),
  ("sky".toList, ⟨"noun".toList, "sky|celestial|nature".toList, "noun".toList⟩),
  ("time".toList, ⟨"noun".toList, "time|temporal|duration".toList, "noun".toList⟩),
  ("trade".toList, ⟨"noun".toList, "trade|commerce|business".toList, "noun".toList⟩),
  ("transport".toList, ⟨"noun".toList, "transport|vehicle|movement".toList, "noun".toList⟩),
  ("tree".toList, ⟨"noun".toList, "tree|plant|nature".toList, "noun".toList⟩),
  ("vegetables".toList, ⟨"noun".toList, "vegetable|food|plant".toList, "noun".toList⟩),
  ("water-animals".toList, ⟨"noun".toList, "animal|water|aquatic".toList, "noun".toList⟩)]

/-- `DictpressConverter.get_category_info`: normalise the file name
(lowercase, drop `.csv`, `_` to `-`) and look it up, with the generic noun
default. -/
def get_category_info (filename : Field) : CategoryInfo :=
  let category := replaceAll ['_'] ['-'] (replaceAll ".csv".toList [] (lowerStr filename))
  match CATEGORY_MAPPINGS.find? (fun e => e.1 = category) with
  | some e => e.2
  | none => ⟨"noun".toList, "general".toList, "noun".toList⟩

/-- `DictpressConverter.get_first_character`. -/
def get_first_character (text : Field) : Field :=
  match text with
  | [] => []
  | c :: _ => [c]

/-- `DictpressConverter.detect_definition_type`: the category's type when
set (it always is, for every table entry and for the default), else
keyword-based detection on the lowercased meaning. -/
def detect_definition_type (english_meaning : Field) (ci : CategoryInfo) : Field :=
  let ml := lowerStr english_meaning
  if ci.type ≠ [] then ci.type
  else if ["action", "to ", "doing"].any (fun w => hasSub w.toList ml) then "verb".toList
  else if ["quality", "describing", "characteristic"].any (fun w => hasSub w.toList ml) then "adj".toList
  else if ["manner", "way", "how"].any (fun w => hasSub w.toList ml) then "adv".toList
  else if ["person", "place", "thing", "object"].any (fun w => hasSub w.toList ml) then "noun".toList
  else "noun".toList

/-- `DictpressConverter.create_enhanced_notes` (computed by `convert_row`
though never emitted). -/
def create_enhanced_notes (env : ConvEnv) (word meaning category : Field) : Field :=
  let base : List Field :=
    if category = "noun".toList ∨ category = "verb".toList ∨
        category = "adj".toList ∨ category = "adv".toList then
      ["Sourashtra word meaning ".toList ++ meaning]
    else []
  -- the source indexes `meaning.split()[0]`; for the stripped non-empty
  -- meanings reaching this point the split is non-empty, so the default of
  -- `headD` is never taken
  let firstWord := if meaning ≠ [] then (wordsOf meaning).headD [] else word
  let syns := get_synonyms env.nltk firstWord
  let withSyn := base ++ (if syns ≠ [] then
      ["Related terms: ".toList ++ List.intercalate ", ".toList (syns.take 3)]
    else [])
  let defn := get_definition env.nltk firstWord
  let parts := withSyn ++ (if defn ≠ [] ∧ defn.length < 100 then [defn] else [])
  if parts ≠ [] then List.intercalate "; ".toList parts
  else "Sourashtra word meaning ".toList ++ meaning

/-- `create_tsvector_tokens.clean_token`: strip, keep word characters,
lowercase (the second character-class substitution of the source is the
identity because every remaining character is already a word character);
tokens of length ≤ 1 are discarded. -/
def clean_token (isW : Char → Bool) (tok : Field) : Field :=
  let c := lowerStr ((strip tok).filter isW)
  if 1 < c.length then c else []

/-- `create_tsvector_tokens.add_token`: append the cleaned token with the
current weight when it is new; the weight counter advances only then. -/
def add_token (isW : Char → Bool) (st : List (Field × Nat) × Nat) (tok : Field) :
    List (Field × Nat) × Nat :=
  let ct := clean_token isW tok
  if ct ≠ [] ∧ st.1.all (fun p => p.1 ≠ ct) then (st.1 ++ [(ct, st.2)], st.2 + 1)
  else st

/-- The four part-of-speech tags tried by the lemmatization pass. -/
def posTags : List Field := [['n'], ['v'], ['a'], ['r']]

/-- `DictpressConverter.create_tsvector_tokens`: accumulate weighted unique
tokens from the word, the pronunciations, the (lowercased) English meaning
words of length > 2, their lemmas, the Tamil meaning words of length > 1
and the related concepts, then format as `'tok':w` pairs joined by spaces.
Weights increase with insertion order, so the source's final sort by weight
is the identity and is dropped here. -/
def create_tsvector_tokens (env : ConvEnv) (sourashtra_word : Field)
    (pronunciations : List Field) (english_meaning : Field)
    (tamil_meaning : Field) (related_concepts : Option (List Field)) : Field :=
  let isW := env.isWordChar
  let st0 : List (Field × Nat) × Nat := ([], 1)
  let st1 := if sourashtra_word ≠ [] then add_token isW st0 sourashtra_word else st0
  let st2 := pronunciations.foldl
    (fun st pron => if pron ≠ [] ∧ strip pron ≠ [] then add_token isW st pron else st) st1
  let st3 := if english_meaning ≠ [] then
      (wordRuns isW (lowerStr english_meaning)).foldl
        (fun st w => if 2 < w.length then add_token isW st w else st) st2
    else st2
  -- the lemmatization pass; its try/except-pass can truncate the pass on a
  -- lemmatizer exception, which is not modelled (the oracle is total)
  let st4 := if english_meaning ≠ [] ∧ env.nltk.available then
      (wordRuns isW (lowerStr english_meaning)).foldl
        (fun st w => if 2 < w.length then
            posTags.foldl (fun st pos =>
              let lm := env.nltk.lemmatize w pos
              if lm ≠ w then add_token isW st lm else st) st
          else st) st3
    else st3
  let st5 := if tamil_meaning ≠ [] then
      (wordRuns isW (lowerStr tamil_meaning)).foldl
        (fun st w => if 1 < w.length then add_token isW st w else st) st4
    else st4
  let st6 := match related_concepts with
    | none => st5
    | some rcs =>
      if rcs ≠ [] then
        (rcs.take 3).foldl (fun st concept =>
          if concept ≠ [] then
            (wordsOf concept).foldl (fun st cw => add_token isW st cw) st
          else st) st5
      else st5
  if st6.1.isEmpty then []
  else List.intercalate [' ']
    (st6.1.map (fun p =>
      [Char.ofNat 39] ++ p.1 ++ [Char.ofNat 39, ':'] ++ (Nat.repr p.2).toList))

/-- Lexicographic order on strings by character code (Python `str` <). -/
def strLe : Field → Field → Bool
  | [], _ => true
  | _ :: _, [] => false
  | a :: as, b :: bs =>
    if a.toNat < b.toNat then true
    else if a = b then strLe as bs
    else false

/-- Insertion into a `strLe`-sorted list. -/
def insertStr (x : Field) : List Field → List Field
  | [] => [x]
  | y :: ys => if strLe x y then x :: y :: ys else y :: insertStr x ys

/-- Sorting (the model of Python `sorted` on a set of strings). -/
def sortStrs (l : List Field) : List Field := l.foldr insertStr []

/-- `DictpressConverter.create_semantic_tags`: category tags plus
meaning-derived tags plus up to two related concepts, deduplicated, sorted
and joined with `|`. -/
def create_semantic_tags (ci : CategoryInfo) (english_meaning : Field)
    (related_concepts : Option (List Field)) : Field :=
  let base := if ci.tags ≠ [] then splitOnChar '|' ci.tags else []
  let ml := lowerStr english_meaning
  let t1 := base ++
    (if hasSub "time".toList ml ∨ hasSub "period".toList ml then ["temporal".toList] else [])
  let t2 := t1 ++
    (if hasSub "person".toList ml ∨ hasSub "people".toList ml then ["person".toList] else [])
  let t3 := t2 ++
    (if hasSub "place".toList ml ∨ hasSub "location".toList ml then ["location".toList] else [])
  let t4 := t3 ++ (match related_concepts with
    | none => []
    | some rcs => rcs.take 2)
  List.intercalate ['|'] (sortStrs (dedupFirst t4))

/-- JSON string escaping (quotes and backslashes; the category values that
reach it contain neither). -/
def jsonEscape (s : Field) : Field :=
  s.flatMap (fun c => if c = '"' ∨ c = '\\' then ['\\', c] else [c])

/-- A JSON string literal. -/
def jsonStr (s : Field) : Field := ['"'] ++ jsonEscape s ++ ['"']

/-- `DictpressConverter.create_metadata_json`: the compact JSON object
with `"` doubled for CSV embedding. -/
def create_metadata_json (ci : CategoryInfo) (english_meaning : Field)
    (etymology : Option Field) : Field :=
  let concrete := ["object", "thing", "person", "place"].any
    (fun w => hasSub w.toList (lowerStr english_meaning))
  let body :=
    [Char.ofNat 123] ++ jsonStr "script".toList ++ [':'] ++ jsonStr "sourashtra".toList
      ++ [','] ++ jsonStr "category".toList ++ [':'] ++ jsonStr ci.category
      ++ [','] ++ jsonStr "type".toList ++ [':']
      ++ jsonStr (if concrete then "concrete".toList else "abstract".toList)
      ++ (match etymology with
          | none => []
          | some e => [','] ++ jsonStr "etymology".toList ++ [':'] ++ jsonStr e)
      ++ [Char.ofNat 125]
  replaceAll ['"'] ['"', '"'] body

/-- `DictpressConverter.combine_pronunciations`: the non-blank
pronunciations, stripped, joined with `|`. -/
def combine_pronunciations (hindi tamil roman hk iast ipa : Field) : Field :=
  List.intercalate ['|']
    (([hindi, tamil, roman, hk, iast, ipa].filter
        (fun p => p ≠ [] ∧ strip p ≠ [])).map strip)

/-- `DictpressConverter.convert_row`: a row with fewer than 9 fields, or a
blank Sourashtra word or English meaning, yields nothing; otherwise one
`-` main entry followed by an English and a Tamil `^` definition entry,
each 11 fields wide. -/
def convert_row (env : ConvEnv) (row : Row) (filename : Field) : List Row :=
  if row.length < 9 then []
  else
    let sourashtra_word := strip (row.getD 0 [])
    let hindi_pron := strip (row.getD 1 [])
    let tamil_pron := strip (row.getD 2 [])
    let roman_readable := strip (row.getD 3 [])
    let harvard_kyoto := strip (row.getD 4 [])
    let iast := strip (row.getD 5 [])
    let ipa := strip (row.getD 6 [])
    let english_meaning := strip (row.getD 7 [])
    let tamil_meaning := strip (row.getD 8 [])
    if sourashtra_word = [] ∨ english_meaning = [] then []
    else
      let category_info := get_category_info filename
      let initial := get_first_character sourashtra_word
      let definition_type := detect_definition_type english_meaning category_info
      -- computed by the source but not emitted (notes fields stay empty)
      let _enhanced_notes :=
        create_enhanced_notes env sourashtra_word english_meaning category_info.category
      let tsvector_tokens := create_tsvector_tokens env sourashtra_word
        [roman_readable, harvard_kyoto, iast] english_meaning tamil_meaning none
      let semantic_tags := create_semantic_tags category_info english_meaning none
      let phones := combine_pronunciations hindi_pron tamil_pron roman_readable
        harvard_kyoto iast ipa
      let metadata := create_metadata_json category_info english_meaning none
      let main_row : Row := [['-'], initial, sourashtra_word, "sourashtra".toList,
        [], [], tsvector_tokens, semantic_tags, phones, [], metadata]
      -- computed by the source but not emitted
      let _english_notes :=
        match get_definition env.nltk ((wordsOf english_meaning).headD []) with
        | [] => "Primary definition: ".toList ++ english_meaning
        | d => d
      let english_row : Row := [['^'], [], english_meaning, "english".toList,
        [], "english".toList, [], semantic_tags, [], definition_type, []]
      let tamil_tokens :=
        create_tsvector_tokens env [] [tamil_meaning] english_meaning tamil_meaning none
      let tamil_row : Row := [['^'], [], tamil_meaning, "tamil".toList,
        [], "tamil".toList, tamil_tokens, semantic_tags,
        (if tamil_pron ≠ [] then tamil_pron else []), definition_type, []]
      [main_row, english_row, tamil_row]

/-- `DictpressConverter.load_existing_sourashtra_terms`: the set of
non-blank `-`-entry contents over the other dictpress files (the directory
walk and the current-file skip are outside the embedding: `files` is the
list of the other files' parsed rows). -/
def load_existing_sourashtra_terms (files : List (List Row)) : List Field :=
  dedupFirst (files.flatMap (fun rows =>
    rows.filterMap (fun row =>
      if 4 ≤ row.length ∧ row.getD 0 [] = ['-'] then
        if strip (row.getD 2 []) ≠ [] then some (strip (row.getD 2 [])) else none
      else none)))

/-- A `^` definition row as tested by `remove_global_duplicates`
(`len(row) >= 1 and row[0] == '^'`). -/
def isCaretRow (row : Row) : Bool :=
  match row with
  | [] => false
  | f :: _ => f = ['^']

/-- A `-` main-entry row as tested by `remove_global_duplicates`
(`len(row) >= 4 and row[0] == '-'`). -/
def isMainRow (row : Row) : Bool :=
  4 ≤ row.length ∧ row.getD 0 [] = ['-']

/-- `DictpressConverter.remove_global_duplicates`: drop every main entry
whose term is in `existing` together with the `^` rows directly following
it, keep everything else, and count the dropped main entries. -/
def remove_global_duplicates (existing : List Field) : List Row → List Row × Nat
  | [] => ([], 0)
  | row :: rest =>
    if isMainRow row then
      if strip (row.getD 2 []) ∈ existing then
        let r := remove_global_duplicates existing (rest.dropWhile isCaretRow)
        (r.1, r.2 + 1)
      else
        let r := remove_global_duplicates existing rest
        (row :: r.1, r.2)
    else
      let r := remove_global_duplicates existing rest
      (row :: r.1, r.2)
termination_by l => l.length
decreasing_by
  · have := (List.dropWhile_suffix (l := rest) isCaretRow).length_le
    simp only [List.length_cons]
    omega
  · simp
  · simp

/-- `analyze_constraints.py::analyze_file`: the `(line number, content)`
pairs of the `-` main entries, rows enumerated from 1, rows with fewer
than 4 fields skipped (but still numbered). -/
def mainEntries : Nat → List Row → List (Nat × Field)
  | _, [] => []
  | n, row :: rest =>
    if row.length < 4 then mainEntries (n + 1) rest
    else if strip (row.getD 0 []) = ['-'] then
      (n, strip (row.getD 2 [])) :: mainEntries (n + 1) rest
    else mainEntries (n + 1) rest

/-- The line numbers at which `t` occurs as a main-entry term
(`main_counts[t]`). -/
def linesOf (t : Field) (rows : List Row) : List Nat :=
  ((mainEntries 1 rows).filter (fun p => p.2 = t)).map Prod.fst

/-- `analyze_file`'s `main_duplicates`: each term occurring on more than
one line, with all its line numbers, keys in first-occurrence order. -/
def main_duplicates (rows : List Row) : List (Field × List Nat) :=
  (dedupFirst ((mainEntries 1 rows).map Prod.snd)).filterMap
    (fun t => if 2 ≤ (linesOf t rows).length then some (t, linesOf t rows) else none)

/-- `analyze_constraints.py::main` over a directory: each file is analyzed
independently. -/
def analyze_dir (files : List (List Row)) : List (List (Field × List Nat)) :=
  files.map main_duplicates

/-! Specification helpers for the bracket-stripping analysis. -/

/-- `s` contains a `(` with a `)` somewhere after it — exactly when the
pattern `\s*\([^)]*\)\s*` has a match in `s`. -/
def hasPair : Field → Bool
  | [] => false
  | c :: cs => if c = '(' ∧ ')' ∈ cs then true else hasPair cs

/-- A parenthesis character. -/
def isParen (c : Char) : Bool := c = '(' || c = ')'

/-! ## Theorems -/

theorem isSpace_paren_false {c : Char} (h : isSpace c = true) : isParen c = false := by
  simp only [isSpace, Bool.or_eq_true, decide_eq_true_eq] at h
  rcases h with ((((h | h) | h) | h) | h) | h <;> subst h <;> decide

theorem mem_of_mem_strip {a : Char} {l : Field} (h : a ∈ strip l) : a ∈ l := by
  unfold strip at h
  rw [List.mem_reverse] at h
  have h1 := ((List.dropWhile_suffix (l := (l.dropWhile isSpace).reverse) isSpace).sublist).subset h
  rw [List.mem_reverse] at h1
  exact ((List.dropWhile_suffix (l := l) isSpace).sublist).subset h1

/-- The 5-field validator is the generic validator at 5. -/
theorem check_csv_file_five_eq (rows : List Row) :
    check_csv_file_five rows = check_csv_file 5 rows := rfl

theorem checkRows_none (expected n : Nat) (rows : List Row)
    (h : ∀ r ∈ rows, blankRow r = false → r.length = expected) :
    checkRows expected n rows = none := by
  induction rows generalizing n with
  | nil => rfl
  | cons row rest ih =>
    rw [checkRows]
    by_cases hb : blankRow row = true
    · rw [if_pos hb]
      exact ih (n + 1) (fun r hr => h r (List.mem_cons_of_mem _ hr))
    · have hlen : row.length = expected := h row (List.mem_cons_self _ _) (by simpa using hb)
      rw [if_neg hb, if_neg (show ¬row.length ≠ expected from fun hx => hx hlen)]
      exact ih (n + 1) (fun r hr => h r (List.mem_cons_of_mem _ hr))

theorem checkRows_first_error (expected n : Nat) (pre : List Row) (bad : Row)
    (post : List Row)
    (hpre : ∀ r ∈ pre, blankRow r = true ∨ r.length = expected)
    (hb : blankRow bad = false) (hlen : bad.length ≠ expected) :
    checkRows expected n (pre ++ bad :: post) = some (n + pre.length, bad.length) := by
  induction pre generalizing n with
  | nil =>
    rw [List.nil_append, checkRows, if_neg (show ¬blankRow bad = true from by simp [hb]),
      if_pos hlen]
    simp
  | cons p pre ih =>
    rw [List.cons_append, checkRows]
    by_cases hbp : blankRow p = true
    · rw [if_pos hbp]
      rw [ih (n + 1) (fun r hr => hpre r (List.mem_cons_of_mem _ hr))]
      simp only [List.length_cons]
      congr 2
      omega
    · have hp : p.length = expected := by
        rcases hpre p (List.mem_cons_self _ _) with hp | hp
        · exact absurd hp hbp
        · exact hp
      rw [if_neg hbp, if_neg (show ¬p.length ≠ expected from fun hx => hx hp)]
      rw [ih (n + 1) (fun r hr => hpre r (List.mem_cons_of_mem _ hr))]
      simp only [List.length_cons]
      congr 2
      omega

/-- C3: the field-count validator accepts a file whose every non-blank row
has the expected field count; and on the first non-blank row with a wrong
count it reports exactly that row's 1-based line number and its field
count, ignoring everything after it (so it stops checking). -/
theorem check_csv_file_spec (expected : Nat) (rows : List Row) :
    ((∀ r ∈ rows, blankRow r = false → r.length = expected) →
      check_csv_file expected rows = none) ∧
    (∀ (pre : List Row) (bad : Row) (post : List Row),
      rows = pre ++ bad :: post →
      (∀ r ∈ pre, blankRow r = true ∨ r.length = expected) →
      blankRow bad = false → bad.length ≠ expected →
      check_csv_file expected rows = some (pre.length + 1, bad.length)) := by
  constructor
  · intro h
    exact checkRows_none expected 1 rows h
  · intro pre bad post hrows hpre hb hlen
    rw [hrows]
    rw [check_csv_file, checkRows_first_error expected 1 pre bad post hpre hb hlen]
    rw [Nat.add_comm]

/-- Witness for `check_csv_file_spec`: a valid file is accepted, and a file
whose line 2 has 2 fields (with a further malformed line after it that is
not reported) yields exactly `(2, 2)`. -/
theorem check_csv_file_spec_witness :
    check_csv_file 5 [[['a'], ['b'], ['c'], ['d'], ['e']]] = none ∧
    check_csv_file 5 [[['a'], ['b'], ['c'], ['d'], ['e']], [['x'], ['y']], [['z']]] =
      some (2, 2) := by
  constructor
  · exact (check_csv_file_spec 5 _).1 (by decide)
  · exact (check_csv_file_spec 5 _).2 [[['a'], ['b'], ['c'], ['d'], ['e']]]
      [['x'], ['y']] [[['z']]] rfl (by decide) (by decide) (by decide)

theorem checkRows_some (expected : Nat) (rows : List Row) (n m k : Nat)
    (h : checkRows expected n rows = some (m, k)) :
    n ≤ m ∧ ∃ r, rows.getD (m - n) [] = r ∧ blankRow r = false ∧
      r.length = k ∧ k ≠ expected := by
  induction rows generalizing n with
  | nil => simp [checkRows] at h
  | cons row rest ih =>
    rw [checkRows] at h
    by_cases hb : blankRow row = true
    · rw [if_pos hb] at h
      obtain ⟨hnm, r, hget, hr⟩ := ih (n + 1) h
      refine ⟨by omega, r, ?_, hr⟩
      have hmn : m - n = (m - (n + 1)) + 1 := by omega
      rw [hmn]
      simpa using hget
    · rw [if_neg hb] at h
      by_cases hlen : row.length ≠ expected
      · rw [if_pos hlen] at h
        simp only [Option.some.injEq, Prod.mk.injEq] at h
        obtain ⟨rfl, rfl⟩ := h
        exact ⟨le_refl _, row, by simp, by simpa using hb, rfl, hlen⟩
      · rw [if_neg hlen] at h
        obtain ⟨hnm, r, hget, hr⟩ := ih (n + 1) h
        refine ⟨by omega, r, ?_, hr⟩
        have hmn : m - n = (m - (n + 1)) + 1 := by omega
        rw [hmn]
        simpa using hget

/-- C10: whenever the validator reports an error, the reported row is a
non-blank row of the file (so an all-blank/whitespace row is never
reported); and concretely a file whose first line is blank (0 fields) is
accepted. -/
theorem check_csv_file_blank_skipped :
    (∀ (expected : Nat) (rows : List Row) (m k : Nat),
      check_csv_file expected rows = some (m, k) →
      1 ≤ m ∧ ∃ r, rows.getD (m - 1) [] = r ∧ blankRow r = false ∧
        r.length = k ∧ k ≠ expected) ∧
    check_csv_file 5 [[], [['a'], ['b'], ['c'], ['d'], ['e']]] = none := by
  constructor
  · intro expected rows m k h
    exact checkRows_some expected rows 1 m k h
  · decide

/-- Witness for `check_csv_file_blank_skipped`: the reported line of a
concrete invalid file is its non-blank 2-field row. -/
theorem check_csv_file_blank_skipped_witness :
    1 ≤ 2 ∧ ∃ r, [[], [['x'], ['y']]].getD (2 - 1) ([] : Row) = r ∧
      blankRow r = false ∧ r.length = 2 ∧ 2 ≠ 5 :=
  check_csv_file_blank_skipped.1 5 [[], [['x'], ['y']]] 2 2 (by decide)

/-- C6: reversing the column order of a 5-field row twice returns the
original row. -/
theorem reverse_row_involution (r : Row) (h : r.length = 5) :
    reverse_row (reverse_row r) = r := by
  rcases r with _ | ⟨a, _ | ⟨b, _ | ⟨c, _ | ⟨d, _ | ⟨e, _ | ⟨f, t⟩⟩⟩⟩⟩⟩ <;>
    simp_all [reverse_row]

/-- Witness for `reverse_row_involution` at a concrete 5-field row. -/
theorem reverse_row_involution_witness :
    reverse_row (reverse_row [[('a' : Char)], ['b'], ['c'], ['d'], ['e']]) =
      [[('a' : Char)], ['b'], ['c'], ['d'], ['e']] :=
  reverse_row_involution _ (by decide)

theorem pad_list_length (lst : List Field) (n : Nat) (h : lst.length ≤ n) :
    (pad_list lst n).length = n := by
  rw [pad_list]
  cases hl : lst.getLast? with
  | none =>
    simp
  | some last =>
    have : lst ≠ [] := by
      intro he
      rw [he] at hl
      simp at hl
    simp only [List.length_append, List.length_replicate]
    omega

/-- C9: every row produced by the composite-term splitter from a 5-field
row has exactly 5 fields, and its fourth and fifth fields are those of the
input row. -/
theorem split_process_csv_line_frame (row : Row) (h : row.length = 5) :
    ∀ r ∈ split_process_csv_line row,
      r.length = 5 ∧ r.getD 3 [] = row.getD 3 [] ∧ r.getD 4 [] = row.getD 4 [] := by
  rcases row with _ | ⟨c1, _ | ⟨c2, _ | ⟨c3, _ | ⟨c4, _ | ⟨c5, _ | ⟨c6, t⟩⟩⟩⟩⟩⟩ <;>
    (try (exfalso; simp only [List.length_cons, List.length_nil] at h; omega))
  intro r hr
  rw [split_process_csv_line] at hr
  split at hr
  · simp only [List.mem_singleton] at hr
    subst hr
    exact ⟨rfl, rfl, rfl⟩
  · obtain ⟨i, _, rfl⟩ := List.mem_map.1 hr
    exact ⟨rfl, rfl, rfl⟩

/-- Witness for `split_process_csv_line_frame`: the first row produced
from a concrete composite row keeps its width and its last two fields. -/
theorem split_process_csv_line_frame_witness :
    ([['x'], ['p'], ['q'], ['r'], ['s']] : Row).length = 5 ∧
    ([['x'], ['p'], ['q'], ['r'], ['s']] : Row).getD 3 [] =
      ([['x', '/', 'y'], ['p'], ['q'], ['r'], ['s']] : Row).getD 3 [] ∧
    ([['x'], ['p'], ['q'], ['r'], ['s']] : Row).getD 4 [] =
      ([['x', '/', 'y'], ['p'], ['q'], ['r'], ['s']] : Row).getD 4 [] :=
  split_process_csv_line_frame [['x', '/', 'y'], ['p'], ['q'], ['r'], ['s']] (by decide)
    [['x'], ['p'], ['q'], ['r'], ['s']] (by decide)

theorem splitOnChar_of_not_mem (sep : Char) (l : Field) (h : sep ∉ l) :
    splitOnChar sep l = [l] := by
  induction l with
  | nil => rfl
  | cons c cs ih =>
    have hc : c ≠ sep := fun he => h (he ▸ List.mem_cons_self _ _)
    have hcs : sep ∉ cs := fun hm => h (List.mem_cons_of_mem _ hm)
    rw [splitOnChar, ih hcs]
    simp [hc]

theorem split_field_singleton (f : Field) (h1 : '/' ∉ f) (h2 : ',' ∉ f) :
    ∃ x, split_field_by_separators f = [x] := by
  rw [split_field_by_separators]
  by_cases hg : f = [] ∨ strip f = []
  · exact ⟨[], if_pos hg⟩
  · rw [if_neg hg]
    have hg1 : '/' ∉ strip f := fun hm => h1 (mem_of_mem_strip hm)
    have hg2 : ',' ∉ strip f := fun hm => h2 (mem_of_mem_strip hm)
    by_cases hq : (strip f).headD ' ' = '"' ∧ (strip f).getLastD ' ' = '"'
    · rw [if_pos hq]
      have hinner2 : ',' ∉ ((strip f).drop 1).dropLast := fun hm =>
        hg2 ((List.drop_sublist _ _).subset ((List.dropLast_sublist _).subset hm))
      have hinner1 : '/' ∉ ((strip f).drop 1).dropLast := fun hm =>
        hg1 ((List.drop_sublist _ _).subset ((List.dropLast_sublist _).subset hm))
      refine ⟨strip (((strip f).drop 1).dropLast), ?_⟩
      have hp : '/' ∉ strip (((strip f).drop 1).dropLast) := fun hm =>
        hinner1 (mem_of_mem_strip hm)
      simp only [splitOnChar_of_not_mem _ _ hinner2]
      simp [hp]
      intro hm
      rw [List.drop_one] at hp
      exact absurd hm hp
    · rw [if_neg hq]
      refine ⟨strip (strip f), ?_⟩
      have hp : ',' ∉ strip (strip f) := fun hm => hg2 (mem_of_mem_strip hm)
      simp only [splitOnChar_of_not_mem _ _ hg1]
      simp [hp]

/-- C4: on the row `["a1/a2", "b1/b2", "c1", "d", "e"]` the splitter
produces exactly `[a1,b1,c1,d,e]` then `[a2,b2,c1,d,e]`; and any 5-field
row whose first three fields contain neither `/` nor `,` passes through
unchanged. -/
theorem split_process_csv_line_spec :
    (split_process_csv_line
        ["a1/a2".toList, "b1/b2".toList, "c1".toList, "d".toList, "e".toList] =
      [["a1".toList, "b1".toList, "c1".toList, "d".toList, "e".toList],
       ["a2".toList, "b2".toList, "c1".toList, "d".toList, "e".toList]]) ∧
    (∀ c1 c2 c3 c4 c5 : Field,
      '/' ∉ c1 → ',' ∉ c1 → '/' ∉ c2 → ',' ∉ c2 → '/' ∉ c3 → ',' ∉ c3 →
      split_process_csv_line [c1, c2, c3, c4, c5] = [[c1, c2, c3, c4, c5]]) := by
  constructor
  · decide
  · intro c1 c2 c3 c4 c5 h1 h1' h2 h2' h3 h3'
    obtain ⟨x1, hx1⟩ := split_field_singleton c1 h1 h1'
    obtain ⟨x2, hx2⟩ := split_field_singleton c2 h2 h2'
    obtain ⟨x3, hx3⟩ := split_field_singleton c3 h3 h3'
    rw [split_process_csv_line, hx1, hx2, hx3]
    simp

/-- Witness for `split_process_csv_line_spec`: a row with plain fields is
returned unchanged. -/
theorem split_process_csv_line_spec_witness :
    split_process_csv_line [['a'], ['b'], ['c'], ['d'], ['e']] =
      [[['a'], ['b'], ['c'], ['d'], ['e']]] :=
  split_process_csv_line_spec.2 ['a'] ['b'] ['c'] ['d'] ['e']
    (by decide) (by decide) (by decide) (by decide) (by decide) (by decide)

theorem split_line_of_not_five (row : Row) (h : row.length ≠ 5) :
    split_process_csv_line row = [row] := by
  rcases row with _ | ⟨c1, _ | ⟨c2, _ | ⟨c3, _ | ⟨c4, _ | ⟨c5, _ | ⟨c6, t⟩⟩⟩⟩⟩⟩ <;>
    first
      | rfl
      | (exfalso; simp at h)

theorem translit_line_of_not_five (call : Field → Field → Except Unit Field)
    (row : Row) (h : row.length ≠ 5) :
    translit_process_csv_line call row = row := by
  rcases row with _ | ⟨c1, _ | ⟨c2, _ | ⟨c3, _ | ⟨c4, _ | ⟨c5, _ | ⟨c6, t⟩⟩⟩⟩⟩⟩ <;>
    first
      | rfl
      | (exfalso; simp at h)

/-- Counterexample to C2: `split_terms.py` does not stop on a malformed
row.  Given a file whose first row has 4 fields, the row is passed through
unchanged and the following row is still transformed (here: split into two
rows), so processing continues past the malformed row and the file
"succeeds". -/
theorem split_terms_continues_after_malformed :
    split_terms_rows
        [[['a'], ['b'], ['c'], ['d']],
         [['x', '/', 'y'], ['p'], ['q'], ['r'], ['s']]] =
      [[['a'], ['b'], ['c'], ['d']],
       [['x'], ['p'], ['q'], ['r'], ['s']],
       [['y'], ['p'], ['q'], ['r'], ['s']]] := by
  decide

/-- C2 (amended): the stop-on-first-malformed-row policy holds for the
column-reversal script (`process_format_csv.py` stops with the 1-based
index of the offending non-blank row and its field count, whatever follows
it), while `split_terms.py` and `transliterate.py` pass a non-5-field row
through unchanged and keep transforming the subsequent rows. -/
theorem malformed_row_policy :
    (∀ (bad : Row) (rest : List Row), blankRow bad = false → bad.length ≠ 5 →
      split_terms_rows (bad :: rest) = bad :: split_terms_rows rest) ∧
    (∀ (call : Field → Field → Except Unit Field) (bad : Row) (rest : List Row),
      blankRow bad = false → bad.length ≠ 5 →
      transliterate_rows call (bad :: rest) = bad :: transliterate_rows call rest) ∧
    (∀ (n : Nat) (pre : List Row) (bad : Row) (post : List Row),
      (∀ r ∈ pre, blankRow r = true ∨ r.length = 5) →
      blankRow bad = false → bad.length ≠ 5 →
      processFormatRows n (pre ++ bad :: post) =
        .error (n + (pre.filter (fun r => blankRow r = false)).length + 1, bad.length)) := by
  refine ⟨?_, ?_, ?_⟩
  · intro bad rest hb hlen
    rw [split_terms_rows, if_neg (show ¬blankRow bad = true from by simp [hb]),
      split_line_of_not_five bad hlen]
    rfl
  · intro call bad rest hb hlen
    rw [transliterate_rows, if_neg (show ¬blankRow bad = true from by simp [hb]),
      translit_line_of_not_five call bad hlen]
  · intro n pre bad post hpre hb hlen
    induction pre generalizing n with
    | nil =>
      rw [List.nil_append, processFormatRows,
        if_neg (show ¬blankRow bad = true from by simp [hb]), if_pos hlen]
      simp
    | cons p pre ih =>
      rw [List.cons_append, processFormatRows]
      by_cases hbp : blankRow p = true
      · rw [if_pos hbp, ih n (fun r hr => hpre r (List.mem_cons_of_mem _ hr))]
        simp [List.filter_cons, hbp]
      · have hp : p.length = 5 := by
          rcases hpre p (List.mem_cons_self _ _) with hp | hp
          · exact absurd hp hbp
          · exact hp
        rw [if_neg hbp, if_neg (show ¬p.length ≠ 5 from fun hx => hx hp),
          ih (n + 1) (fun r hr => hpre r (List.mem_cons_of_mem _ hr))]
        have hcnt : ((p :: pre).filter (fun r => blankRow r = false)).length =
            (pre.filter (fun r => blankRow r = false)).length + 1 := by
          simp [List.filter_cons, hb, hbp]
        rw [hcnt]
        have : n + 1 + (pre.filter (fun r => blankRow r = false)).length + 1 =
            n + ((pre.filter (fun r => blankRow r = false)).length + 1) + 1 := by omega
        rw [this]

/-- Witness for `malformed_row_policy`: a 4-field row passes through the
splitter's file loop with processing continuing behind it. -/
theorem malformed_row_policy_witness :
    split_terms_rows ([['x'], ['y']] :: [[['a'], ['b'], ['c'], ['d'], ['e']]]) =
      [['x'], ['y']] :: split_terms_rows [[['a'], ['b'], ['c'], ['d'], ['e']]] :=
  malformed_row_policy.1 [['x'], ['y']] [[['a'], ['b'], ['c'], ['d'], ['e']]]
    (by decide) (by decide)

/-- C7: every external enrichment failure degrades to an empty/default
value instead of propagating: a failed ConceptNet request yields `[]`, a
failing transliteration call yields the all-empty transliteration record,
and a failing WordNet lookup yields `[]` / the empty string. -/
theorem external_failures_degrade :
    (∀ (word : Field) (limit : Nat) (e : Unit),
      get_related_concepts word limit (.error e) = []) ∧
    (∀ (call : Field → Field → Except Unit Field) (w : Field),
      (∃ fmt ∈ [fmtRomanReadable, fmtHK, fmtIAST, fmtIPA],
        (call fmt (strip w)).isOk = false) →
      transliterate_sourashtra_word call w = emptyTranslits) ∧
    (∀ (o : NLTKOracle) (word : Field) (e : Unit), o.synsets word = .error e →
      get_synonyms o word = []) ∧
    (∀ (o : NLTKOracle) (word : Field) (e : Unit), o.synsets word = .error e →
      get_definition o word = []) := by
  refine ⟨?_, ?_, ?_, ?_⟩
  · intro word limit e
    rfl
  · intro call w hex
    rw [transliterate_sourashtra_word]
    by_cases hb : w = [] ∨ strip w = []
    · rw [if_pos hb]
    · rw [if_neg hb]
      obtain ⟨fmt, hfmt, hcall⟩ := hex
      simp only [List.mem_cons, List.not_mem_nil, or_false] at hfmt
      rcases h1 : call fmtRomanReadable (strip w) with e1 | v1 <;>
        rcases h2 : call fmtHK (strip w) with e2 | v2 <;>
          rcases h3 : call fmtIAST (strip w) with e3 | v3 <;>
            rcases h4 : call fmtIPA (strip w) with e4 | v4 <;>
              simp only [h1, h2, h3, h4] <;>
                first
                  | rfl
                  | (rcases hfmt with rfl | rfl | rfl | rfl <;>
                      simp [h1, h2, h3, h4, Except.isOk, Except.toBool] at hcall)
  · intro o word e he
    rw [get_synonyms]
    by_cases ha : o.available = false
    · rw [if_pos ha]
    · rw [if_neg ha, he]
  · intro o word e he
    rw [get_definition]
    by_cases ha : o.available = false
    · rw [if_pos ha]
    · rw [if_neg ha, he]

/-- Witness for `external_failures_degrade`: an always-raising
transliteration library yields the all-empty record on a concrete word. -/
theorem external_failures_degrade_witness :
    transliterate_sourashtra_word (fun _ _ => .error ()) ['a'] = emptyTranslits :=
  external_failures_degrade.2.1 (fun _ _ => .error ()) ['a']
    ⟨fmtRomanReadable, by simp, rfl⟩

/-- C8: the dictpress row converter returns either nothing or exactly
three rows — a `-` main entry, then an English `^` definition, then a
Tamil `^` definition, each 11 fields wide — and it returns nothing exactly
when the input row has fewer than 9 fields or a blank Sourashtra word or
English meaning. -/
theorem convert_row_shape (env : ConvEnv) (row : Row) (filename : Field) :
    (convert_row env row filename = [] ↔
      row.length < 9 ∨ strip (row.getD 0 []) = [] ∨ strip (row.getD 7 []) = []) ∧
    (convert_row env row filename = [] ∨
      ∃ r1 r2 r3, convert_row env row filename = [r1, r2, r3] ∧
        r1.length = 11 ∧ r2.length = 11 ∧ r3.length = 11 ∧
        r1.getD 0 [] = ['-'] ∧ r2.getD 0 [] = ['^'] ∧ r3.getD 0 [] = ['^'] ∧
        r2.getD 3 [] = "english".toList ∧ r3.getD 3 [] = "tamil".toList) := by
  by_cases h9 : row.length < 9
  · exact ⟨by simp [convert_row, h9], Or.inl (by simp [convert_row, h9])⟩
  · by_cases hsw : strip (row.getD 0 []) = []
    · have hsw' : strip (row[0]?.getD []) = [] := by
        rw [← List.getD_eq_getElem?_getD]
        exact hsw
      exact ⟨by simp [convert_row, h9, hsw'], Or.inl (by simp [convert_row, h9, hsw'])⟩
    · have hsw' : ¬strip (row[0]?.getD []) = [] := by
        rw [← List.getD_eq_getElem?_getD]
        exact hsw
      by_cases hem : strip (row.getD 7 []) = []
      · have hem' : strip (row[7]?.getD []) = [] := by
          rw [← List.getD_eq_getElem?_getD]
          exact hem
        exact ⟨by simp [convert_row, h9, hsw', hem'],
          Or.inl (by simp [convert_row, h9, hsw', hem'])⟩
      · have hem' : ¬strip (row[7]?.getD []) = [] := by
          rw [← List.getD_eq_getElem?_getD]
          exact hem
        have hcond : ¬(strip (row.getD 0 []) = [] ∨ strip (row.getD 7 []) = []) := by
          rintro (h | h)
          · exact hsw h
          · exact hem h
        constructor
        · constructor
          · intro hemp
            exfalso
            simp [convert_row, h9, hsw', hem'] at hemp
          · rintro (h | h | h)
            · exact absurd h h9
            · exact absurd h hsw
            · exact absurd h hem
        · right
          simp only [convert_row, if_neg h9, if_neg hcond]
          exact ⟨_, _, _, rfl, rfl, rfl, rfl, rfl, rfl, rfl, rfl, rfl⟩

theorem mem_dedupFirst {x : Field} {l : List Field} : x ∈ dedupFirst l ↔ x ∈ l := by
  induction l with
  | nil => simp [dedupFirst]
  | cons y ys ih =>
    rw [dedupFirst]
    simp only [List.mem_cons, List.mem_filter]
    constructor
    · rintro (rfl | ⟨hx, -⟩)
      · exact Or.inl rfl
      · exact Or.inr (ih.1 hx)
    · rintro (rfl | hx)
      · exact Or.inl rfl
      · by_cases hxy : x = y
        · exact Or.inl hxy
        · exact Or.inr ⟨ih.2 hx, by simp [hxy]⟩

theorem main_duplicates_mem (rows : List Row) (t : Field) :
    (t, linesOf t rows) ∈ main_duplicates rows ↔ 2 ≤ (linesOf t rows).length := by
  rw [main_duplicates, List.mem_filterMap]
  constructor
  · rintro ⟨a, -, ha⟩
    by_cases h2 : 2 ≤ (linesOf a rows).length
    · rw [if_pos h2] at ha
      simp only [Option.some.injEq, Prod.mk.injEq] at ha
      exact ha.1 ▸ h2
    · rw [if_neg h2] at ha
      simp at ha
  · intro h2
    refine ⟨t, ?_, if_pos h2⟩
    rw [mem_dedupFirst]
    have hne : linesOf t rows ≠ [] := by
      intro he
      rw [he] at h2
      simp at h2
    obtain ⟨n, hn⟩ := List.exists_mem_of_ne_nil _ hne
    rw [linesOf] at hn
    obtain ⟨p, hp, -⟩ := List.mem_map.1 hn
    obtain ⟨hpm, hpt⟩ := List.mem_filter.1 hp
    exact List.mem_map.2 ⟨p, hpm, by simpa using hpt⟩

theorem caret_not_main {r : Row} (h : isCaretRow r = true) : isMainRow r = false := by
  rcases r with - | ⟨f, fs⟩
  · simp [isCaretRow] at h
  · rw [isCaretRow] at h
    rw [isMainRow]
    simp only [decide_eq_true_eq] at h
    simp [h]

theorem filter_caret_run_nil (existing : List Field) (l : List Row) :
    (l.takeWhile isCaretRow).filter
      (fun r => isMainRow r ∧ strip (r.getD 2 []) ∈ existing) = [] := by
  rw [List.filter_eq_nil_iff]
  intro a ha
  have hc := List.mem_takeWhile_imp ha
  simp [caret_not_main hc]

theorem remove_global_count (existing : List Field) (rows : List Row) :
    (remove_global_duplicates existing rows).2 =
      (rows.filter (fun r => isMainRow r ∧ strip (r.getD 2 []) ∈ existing)).length := by
  induction rows using remove_global_duplicates.induct existing with
  | case1 => simp [remove_global_duplicates]
  | case2 row rest hmain hmem ih =>
    have hmem' : strip (row[2]?.getD []) ∈ existing := by
      rw [← List.getD_eq_getElem?_getD]
      exact hmem
    rw [remove_global_duplicates, if_pos hmain, if_pos hmem]
    simp only
    rw [ih]
    have hsplit := List.takeWhile_append_dropWhile isCaretRow rest
    calc ((rest.dropWhile isCaretRow).filter
            (fun r => isMainRow r ∧ strip (r.getD 2 []) ∈ existing)).length + 1
        = ((rest.takeWhile isCaretRow).filter
            (fun r => isMainRow r ∧ strip (r.getD 2 []) ∈ existing) ++
           (rest.dropWhile isCaretRow).filter
            (fun r => isMainRow r ∧ strip (r.getD 2 []) ∈ existing)).length + 1 := by
          rw [filter_caret_run_nil]
          simp
      _ = ((row :: rest).filter
            (fun r => isMainRow r ∧ strip (r.getD 2 []) ∈ existing)).length := by
          rw [← List.filter_append, hsplit, List.filter_cons]
          simp [hmain, hmem, hmem']
  | case3 row rest hmain hmem ih =>
    have hmem' : strip (row[2]?.getD []) ∉ existing := by
      rw [← List.getD_eq_getElem?_getD]
      exact hmem
    rw [remove_global_duplicates, if_pos hmain, if_neg hmem]
    simp only
    rw [ih, List.filter_cons]
    simp [hmem, hmem']
  | case4 row rest hmain ih =>
    rw [remove_global_duplicates, if_neg hmain]
    simp only
    rw [ih, List.filter_cons]
    simp [hmain]

theorem remove_global_kept (existing : List Field) (rows : List Row) :
    ∀ r ∈ (remove_global_duplicates existing rows).1,
      isMainRow r = true → strip (r.getD 2 []) ∉ existing := by
  induction rows using remove_global_duplicates.induct existing with
  | case1 => simp [remove_global_duplicates]
  | case2 row rest hmain hmem ih =>
    rw [remove_global_duplicates, if_pos hmain, if_pos hmem]
    exact ih
  | case3 row rest hmain hmem ih =>
    rw [remove_global_duplicates, if_pos hmain, if_neg hmem]
    intro r hr
    rcases List.mem_cons.1 hr with rfl | hr
    · intro _
      exact hmem
    · exact ih r hr
  | case4 row rest hmain ih =>
    rw [remove_global_duplicates, if_neg hmain]
    intro r hr
    rcases List.mem_cons.1 hr with rfl | hr
    · intro hm
      exact absurd hm (by simp [hmain])
    · exact ih r hr

/-- Counterexample to C1: a Sourashtra term with one main entry in each of
two dictpress files occurs twice across the files, yet the per-file
constraint analysis reports no duplicate for either file — cross-file
duplicates are never reported by name and line number (the converter only
counts and silently removes them, see `remove_global_duplicates`). -/
theorem cross_file_duplicate_not_reported :
    analyze_dir [[[['-'], [], ['t'], ['l']]], [[['-'], [], ['t'], ['l']]]] = [[], []] ∧
    (linesOf ['t'] [[['-'], [], ['t'], ['l']]]).length +
      (linesOf ['t'] [[['-'], [], ['t'], ['l']]]).length = 2 := by
  decide

/-- C1 (amended): within one dictpress file, a term is reported by
`analyze_constraints.py` (with its name and all its 1-based line numbers)
exactly when it has main entries on at least two lines; across files, a
main entry whose term already exists in another dictpress file is detected
during conversion — `remove_global_duplicates` counts exactly the main
entries with a globally existing term and removes them all — but only a
count is reported, not names or line numbers. -/
theorem duplicate_detection_scope :
    (∀ (rows : List Row) (t : Field),
      (t, linesOf t rows) ∈ main_duplicates rows ↔ 2 ≤ (linesOf t rows).length) ∧
    (∀ (existing : List Field) (rows : List Row),
      (remove_global_duplicates existing rows).2 =
        (rows.filter (fun r => isMainRow r ∧ strip (r.getD 2 []) ∈ existing)).length ∧
      ∀ r ∈ (remove_global_duplicates existing rows).1,
        isMainRow r = true → strip (r.getD 2 []) ∉ existing) :=
  ⟨main_duplicates_mem, fun existing rows =>
    ⟨remove_global_count existing rows, remove_global_kept existing rows⟩⟩

/-- Witness for `duplicate_detection_scope`: a file whose term `t` appears
on lines 1 and 3 is reported, and a globally duplicate main entry is
counted and dropped. -/
theorem duplicate_detection_scope_witness :
    ((['t'], linesOf ['t']
        [[['-'], [], ['t'], ['l']], [['^'], [], ['d'], ['l']], [['-'], [], ['t'], ['l']]]) ∈
      main_duplicates
        [[['-'], [], ['t'], ['l']], [['^'], [], ['d'], ['l']], [['-'], [], ['t'], ['l']]]) ∧
    (remove_global_duplicates [['t']]
        [[['-'], [], ['t'], ['l']], [['^'], ['x']], [['-'], [], ['u'], ['l']]]).2 = 1 := by
  constructor
  · exact (duplicate_detection_scope.1 _ ['t']).2 (by decide)
  · rw [(duplicate_detection_scope.2 [['t']] _).1]
    decide

/-! Idempotence of the bracket-stripping transform.  The key invariant:
after one `subScan` pass no `(` is followed by a `)` anymore (otherwise the
scan would have matched at that `(`), whitespace normalisation preserves
that invariant, and on such strings both passes are the identity /
idempotent. -/

theorem matchClose_eq_none {l : Field} : matchClose l = none ↔ ')' ∉ l := by
  induction l with
  | nil => simp [matchClose]
  | cons c cs ih =>
    rw [matchClose]
    by_cases hc : c = ')'
    · subst hc
      simp
    · rw [if_neg hc, ih]
      simp [Ne.symm hc, hc]

theorem matchClose_suffix {l r : Field} (h : matchClose l = some r) : r <:+ l := by
  induction l with
  | nil => simp [matchClose] at h
  | cons c cs ih =>
    rw [matchClose] at h
    by_cases hc : c = ')'
    · rw [if_pos hc] at h
      injection h with h
      rw [← h]
      exact (List.dropWhile_suffix isSpace).trans (List.suffix_cons c cs)
    · rw [if_neg hc] at h
      exact (ih h).trans (List.suffix_cons c cs)

theorem tryMatch_suffix {s r : Field} (h : tryMatch s = some r) : r <:+ s := by
  rw [tryMatch] at h
  cases hd : s.dropWhile isSpace with
  | nil =>
    rw [hd] at h
    cases h
  | cons c cs =>
    rw [hd] at h
    dsimp only at h
    by_cases hc : c = '('
    · rw [if_pos hc] at h
      exact (matchClose_suffix h).trans
        ((List.suffix_cons c cs).trans (hd ▸ List.dropWhile_suffix isSpace))
    · rw [if_neg hc] at h
      cases h

theorem subScan_cons_some {c : Char} {cs rest : Field}
    (h : tryMatch (c :: cs) = some rest) : subScan (c :: cs) = subScan rest := by
  rw [subScan]
  split
  · rename_i r hr
    rw [h] at hr
    injection hr with hh
    rw [hh]
  · rename_i hr
    rw [h] at hr
    cases hr

theorem subScan_cons_none {c : Char} {cs : Field}
    (h : tryMatch (c :: cs) = none) : subScan (c :: cs) = c :: subScan cs := by
  rw [subScan]
  split
  · rename_i r hr
    rw [h] at hr
    cases hr
  · rfl

theorem subScan_nil : subScan [] = [] := by
  rw [subScan]

theorem mem_subScan {a : Char} {l : Field} (h : a ∈ subScan l) : a ∈ l := by
  induction l using subScan.induct with
  | case1 =>
    rw [subScan_nil] at h
    exact h
  | case2 c cs rest hm ih =>
    rw [subScan_cons_some hm] at h
    exact (tryMatch_suffix hm).sublist.subset (ih h)
  | case3 c cs hm ih =>
    rw [subScan_cons_none hm] at h
    rcases List.mem_cons.1 h with rfl | h
    · exact List.mem_cons_self _ _
    · exact List.mem_cons_of_mem _ (ih h)

theorem tryMatch_open_none {c : Char} {cs : Field} (hc : c = '(')
    (h : tryMatch (c :: cs) = none) : matchClose cs = none := by
  subst hc
  rw [tryMatch] at h
  have hd : ('(' :: cs).dropWhile isSpace = '(' :: cs := by
    rw [List.dropWhile_cons, if_neg (by decide)]
  rw [hd] at h
  dsimp only at h
  rwa [if_pos rfl] at h

theorem hasPair_of_dropWhile {l cs : Field} (h : l.dropWhile isSpace = '(' :: cs)
    (hmem : ')' ∈ cs) : hasPair l = true := by
  induction l with
  | nil => simp at h
  | cons x xs ih =>
    rw [List.dropWhile_cons] at h
    by_cases hx : isSpace x = true
    · rw [if_pos hx] at h
      rw [hasPair]
      split
      · rfl
      · exact ih h
    · rw [if_neg hx] at h
      injection h with h1 h2
      subst h1
      subst h2
      rw [hasPair, if_pos ⟨rfl, hmem⟩]

theorem hasPair_subScan (l : Field) : hasPair (subScan l) = false := by
  induction l using subScan.induct with
  | case1 =>
    rw [subScan_nil]
    rfl
  | case2 c cs rest hm ih =>
    rw [subScan_cons_some hm]
    exact ih
  | case3 c cs hm ih =>
    rw [subScan_cons_none hm, hasPair]
    rw [if_neg ?_]
    · exact ih
    rintro ⟨rfl, hmem⟩
    have hnone := tryMatch_open_none rfl hm
    exact (matchClose_eq_none.1 hnone) (mem_subScan hmem)

theorem subScan_of_not_hasPair {l : Field} (h : hasPair l = false) :
    subScan l = l := by
  induction l using subScan.induct with
  | case1 => exact subScan_nil
  | case2 c cs rest hm ih =>
    exfalso
    rw [tryMatch] at hm
    rcases hd : (c :: cs).dropWhile isSpace with - | ⟨c', cs'⟩
    · rw [hd] at hm
      cases hm
    · rw [hd] at hm
      dsimp only at hm
      by_cases hc : c' = '('
      · rw [if_pos hc] at hm
        subst hc
        have hmem : ')' ∈ cs' := by
          by_contra hnm
          rw [matchClose_eq_none.2 hnm] at hm
          cases hm
        rw [hasPair_of_dropWhile hd hmem] at h
        cases h
      · rw [if_neg hc] at hm
        cases hm
  | case3 c cs hm ih =>
    rw [subScan_cons_none hm]
    rw [hasPair] at h
    by_cases hcond : c = '(' ∧ ')' ∈ cs
    · rw [if_pos hcond] at h
      cases h
    · rw [if_neg hcond] at h
      rw [ih h]

theorem hasPair_filter (l : Field) : hasPair (l.filter isParen) = hasPair l := by
  induction l with
  | nil => rfl
  | cons c cs ih =>
    have hmemf : (')' ∈ cs.filter isParen) ↔ ')' ∈ cs := by
      rw [List.mem_filter]
      simp [isParen]
    rw [List.filter_cons]
    by_cases hp : isParen c = true
    · rw [if_pos hp, hasPair, hasPair]
      by_cases hcond : c = '(' ∧ ')' ∈ cs
      · rw [if_pos hcond, if_pos ⟨hcond.1, hmemf.2 hcond.2⟩]
      · rw [if_neg hcond, if_neg ?_, ih]
        rintro ⟨rfl, hmem⟩
        exact hcond ⟨rfl, hmemf.1 hmem⟩
    · rw [if_neg hp]
      have hcn : ¬c = '(' := by
        rintro rfl
        exact hp (by decide)
      rw [hasPair, if_neg (by rintro ⟨rfl, -⟩; exact hcn rfl)]
      exact ih

theorem filter_dropWhile_space (l : Field) :
    (l.dropWhile isSpace).filter isParen = l.filter isParen := by
  induction l with
  | nil => rfl
  | cons c cs ih =>
    rw [List.dropWhile_cons]
    by_cases hc : isSpace c = true
    · rw [if_pos hc, ih, List.filter_cons, if_neg (by simp [isSpace_paren_false hc])]
    · rw [if_neg hc]

theorem squishGo_nil : squishGo [] = [] := by
  rw [squishGo]

theorem squishGo_cons_space_nil {c : Char} {cs : Field} (hc : isSpace c = true)
    (hd : cs.dropWhile isSpace = []) : squishGo (c :: cs) = [] := by
  rw [squishGo, if_pos hc]
  split
  · rfl
  · rename_i d ds hdw
    rw [hd] at hdw
    cases hdw

theorem squishGo_cons_space_cons {c : Char} {cs : Field} {d : Char} {ds : Field}
    (hc : isSpace c = true) (hd : cs.dropWhile isSpace = d :: ds) :
    squishGo (c :: cs) = ' ' :: squishGo (d :: ds) := by
  rw [squishGo, if_pos hc]
  split
  · rename_i hdw
    rw [hd] at hdw
    cases hdw
  · rename_i d' ds' hdw
    rw [hd] at hdw
    injection hdw with h1 h2
    subst h1
    subst h2
    rfl

theorem squishGo_cons_nonspace {c : Char} {cs : Field} (hc : isSpace c = false) :
    squishGo (c :: cs) = c :: squishGo cs := by
  rw [squishGo, if_neg (by simp [hc])]

theorem filter_squishGo (l : Field) :
    (squishGo l).filter isParen = l.filter isParen := by
  induction l using squishGo.induct with
  | case1 => rw [squishGo_nil]
  | case2 c cs hc hd =>
    rw [squishGo_cons_space_nil hc hd, List.filter_cons,
      if_neg (by simp [isSpace_paren_false hc])]
    have : cs.filter isParen = [] := by
      rw [List.filter_eq_nil_iff]
      intro a ha
      have := List.dropWhile_eq_nil_iff.1 hd a ha
      simp [isSpace_paren_false this]
    rw [this]
    rfl
  | case3 c cs hc d ds hd ih =>
    rw [squishGo_cons_space_cons hc hd, List.filter_cons, List.filter_cons,
      if_neg (by decide), if_neg (by simp [isSpace_paren_false hc]), ih, ← hd,
      filter_dropWhile_space]
  | case4 c cs hc ih =>
    rw [squishGo_cons_nonspace (by simpa using hc), List.filter_cons, List.filter_cons]
    by_cases hp : isParen c = true
    · rw [if_pos hp, if_pos hp, ih]
    · rw [if_neg hp, if_neg hp, ih]

theorem head_dropWhile_nonspace {s : Field} {d : Char} {ds : Field}
    (h : s.dropWhile isSpace = d :: ds) : isSpace d = false := by
  have hh := List.head?_dropWhile_not isSpace s
  rw [h] at hh
  simpa using hh

theorem squishGo_idem (l : Field) : squishGo (squishGo l) = squishGo l := by
  induction l using squishGo.induct with
  | case1 => rw [squishGo_nil, squishGo_nil]
  | case2 c cs hc hd =>
    rw [squishGo_cons_space_nil hc hd, squishGo_nil]
  | case3 c cs hc d ds hd ih =>
    have hdns : isSpace d = false := head_dropWhile_nonspace hd
    have hX : squishGo (d :: ds) = d :: squishGo ds := squishGo_cons_nonspace hdns
    rw [squishGo_cons_space_cons hc hd]
    have hdw : (squishGo (d :: ds)).dropWhile isSpace = d :: squishGo ds := by
      rw [hX, List.dropWhile_cons, if_neg (by simp [hdns])]
    rw [squishGo_cons_space_cons (by decide) hdw, ← hX, ih]
  | case4 c cs hc ih =>
    have hc' : isSpace c = false := by simpa using hc
    rw [squishGo_cons_nonspace hc', squishGo_cons_nonspace hc', ih]

theorem dropWhile_squish (s : Field) : (squish s).dropWhile isSpace = squish s := by
  rw [squish]
  cases hd : s.dropWhile isSpace with
  | nil => rw [squishGo_nil]; rfl
  | cons d ds =>
    have hdns : isSpace d = false := head_dropWhile_nonspace hd
    rw [squishGo_cons_nonspace hdns, List.dropWhile_cons, if_neg (by simp [hdns])]

theorem squish_idem (s : Field) : squish (squish s) = squish s := by
  have h1 : squish (squish s) = squishGo ((squish s).dropWhile isSpace) := rfl
  rw [h1, dropWhile_squish]
  exact squishGo_idem _

theorem hasPair_squish (s : Field) : hasPair (squish s) = hasPair s := by
  rw [squish, ← hasPair_filter (squishGo (s.dropWhile isSpace)), filter_squishGo,
    filter_dropWhile_space, hasPair_filter]

/-- C5: the bracket-stripping transform of `cleanup.py` is idempotent —
applying `clean_bracket_terms` twice yields the same result as applying it
once. -/
theorem clean_bracket_terms_idempotent (s : Field) :
    clean_bracket_terms (clean_bracket_terms s) = clean_bracket_terms s := by
  by_cases hs : s.isEmpty = true
  · have h1 : clean_bracket_terms s = s := by rw [clean_bracket_terms, if_pos hs]
    rw [h1]
    exact h1
  · have h1 : clean_bracket_terms s = squish (subScan s) := by
      rw [clean_bracket_terms, if_neg hs]
    rw [h1, clean_bracket_terms]
    by_cases h2 : (squish (subScan s)).isEmpty = true
    · rw [if_pos h2]
    · rw [if_neg h2]
      have hp : hasPair (squish (subScan s)) = false := by
        rw [hasPair_squish]
        exact hasPair_subScan s
      rw [subScan_of_not_hasPair hp, squish_idem]

end Srd
